import Mathlib

/-!
Verification of the fraud-detection core: a shallow embedding of
`src/training/metrics.py`, `src/training/utils.py`, `src/training/train.py`
and `src/graph/build_graph.py`, together with theorems settling the spec
claims about them.

Conventions of the embedding:
* labels and predictions are `List Bool` (the code uses 0/1 vectors);
* real-valued scores, ratios and metric values are `ℚ` (the algorithms only
  compare, add, multiply and divide, so exact rationals embed the float code's
  order-theoretic behaviour);
* fallible Python code (exceptions, out-of-bounds indexing) is returned as
  `Except`/`Option`.
-/

/-! ### Metrics (`src/training/metrics.py`, `FraudMetrics.compute_metrics`)

The confusion counts index the zipped label/prediction pairs exactly as
sklearn does for binary 0/1 data: TP counts pairs (1,1), FP counts (0,1),
FN counts (1,0), TN counts (0,0). -/

def countTP (yTrue yPred : List Bool) : ℕ :=
  (yTrue.zip yPred).countP fun p => p.1 && p.2

def countFP (yTrue yPred : List Bool) : ℕ :=
  (yTrue.zip yPred).countP fun p => !p.1 && p.2

def countFN (yTrue yPred : List Bool) : ℕ :=
  (yTrue.zip yPred).countP fun p => p.1 && !p.2

def countTN (yTrue yPred : List Bool) : ℕ :=
  (yTrue.zip yPred).countP fun p => !p.1 && !p.2

/-- The sorted list of class labels occurring in `y_true` or `y_pred` —
what `sklearn.metrics.confusion_matrix` uses (with `labels=None`) to size the
matrix: the returned matrix is `k × k` for `k` present labels, so
`confusion_matrix(...).ravel()` yields `k²` values. -/
def presentLabels (yTrue yPred : List Bool) : List Bool :=
  (if yTrue.contains false || yPred.contains false then [false] else []) ++
    (if yTrue.contains true || yPred.contains true then [true] else [])

structure Metrics where
  accuracy : ℚ
  precision : ℚ
  recall' : ℚ
  f1 : ℚ
  true_negatives : ℕ
  false_positives : ℕ
  false_negatives : ℕ
  true_positives : ℕ
  specificity : ℚ
  fpr : ℚ
  fnr : ℚ
  deriving Repr, DecidableEq

/-- `FraudMetrics.compute_metrics` (the `y_prob = None` path; the optional
AUC block is wrapped in `try/except` in the source and never raises).
`precision_score`/`recall_score`/`f1_score` are called with
`zero_division=0`, so a zero denominator yields 0; `specificity`, `fpr` and
`fnr` have explicit zero-denominator guards in the source.  The line
`tn, fp, fn, tp = confusion_matrix(y_true, y_pred).ravel()` unpacks four
values, which succeeds exactly when both classes occur among the inputs
(otherwise the matrix is `1 × 1` or empty and Python raises `ValueError`). -/
def compute_metrics (yTrue yPred : List Bool) : Except String Metrics :=
  if yTrue.length ≠ yPred.length then
    .error "Found input variables with inconsistent numbers of samples"
  else
    let n : ℚ := yTrue.length
    let tp := countTP yTrue yPred
    let fp := countFP yTrue yPred
    let fn := countFN yTrue yPred
    let tn := countTN yTrue yPred
    let accuracy : ℚ := ((yTrue.zip yPred).countP fun p => p.1 == p.2 : ℕ) / n
    let precision : ℚ := if tp + fp = 0 then 0 else (tp : ℚ) / ((tp : ℚ) + fp)
    let recallV : ℚ := if tp + fn = 0 then 0 else (tp : ℚ) / ((tp : ℚ) + fn)
    let f1 : ℚ :=
      if precision + recallV = 0 then 0 else 2 * precision * recallV / (precision + recallV)
    if (presentLabels yTrue yPred).length = 2 then
      .ok { accuracy := accuracy, precision := precision, recall' := recallV, f1 := f1,
            true_negatives := tn, false_positives := fp,
            false_negatives := fn, true_positives := tp,
            specificity := if 0 < tn + fp then (tn : ℚ) / ((tn : ℚ) + fp) else 0,
            fpr := if 0 < fp + tn then (fp : ℚ) / ((fp : ℚ) + tn) else 0,
            fnr := if 0 < fn + tp then (fn : ℚ) / ((fn : ℚ) + tp) else 0 }
    else
      .error "not enough values to unpack from confusion matrix ravel"

/-- C2: the claim says `compute_metrics` never raises on equal-length 0/1
vectors.  The code contradicts its own evident intent (`zero_division=0`
everywhere): at `y_true = [0,0]`, `y_pred = [0,0]` — no positive predictions,
precisely the zero-denominator case the spec calls out for precision — the
confusion matrix is `1 × 1` and the four-way unpack raises `ValueError`
instead of returning zeros. -/
theorem compute_metrics_single_class_raises :
    compute_metrics [false, false] [false, false] =
      .error "not enough values to unpack from confusion matrix ravel" := by
  rfl

theorem length_eq_confusion_sum (l : List (Bool × Bool)) :
    l.length = (l.countP fun p => p.1 && p.2) + (l.countP fun p => !p.1 && p.2) +
      ((l.countP fun p => p.1 && !p.2) + (l.countP fun p => !p.1 && !p.2)) := by
  induction l with
  | nil => simp
  | cons x xs ih =>
    rcases x with ⟨a, b⟩
    cases a <;> cases b <;> simp [List.countP_cons, ih] <;> omega

theorem countEq_eq_tp_add_tn (l : List (Bool × Bool)) :
    (l.countP fun p => p.1 == p.2) =
      (l.countP fun p => p.1 && p.2) + (l.countP fun p => !p.1 && !p.2) := by
  induction l with
  | nil => simp
  | cons x xs ih =>
    rcases x with ⟨a, b⟩
    cases a <;> cases b <;> simp [List.countP_cons, ih] <;> omega

theorem mem_true_of_countTP_pos {yTrue yPred : List Bool}
    (h : 0 < countTP yTrue yPred) : true ∈ yTrue := by
  unfold countTP at h
  obtain ⟨p, hp, hpp⟩ := List.countP_pos_iff.mp h
  rcases p with ⟨a, b⟩
  obtain ⟨ha, -⟩ := List.of_mem_zip hp
  have hab : a = true ∧ b = true := by simpa using hpp
  rw [← hab.1]
  exact ha

theorem mem_false_of_countTN_pos {yTrue yPred : List Bool}
    (h : 0 < countTN yTrue yPred) : false ∈ yTrue := by
  unfold countTN at h
  obtain ⟨p, hp, hpp⟩ := List.countP_pos_iff.mp h
  rcases p with ⟨a, b⟩
  obtain ⟨ha, -⟩ := List.of_mem_zip hp
  have hab : a = false ∧ b = false := by simpa using hpp
  rw [← hab.1]
  exact ha

/-- C8: whenever the confusion matrix of the inputs is TP = 8, FP = 2,
FN = 3, TN = 87, `compute_metrics` returns precision = 8/10 = 4/5,
recall = 8/11, F1 = 2·p·r/(p+r) = 16/21 (≈ 0.762), and reports the four
confusion counts. -/
theorem compute_metrics_confusion_8_2_3_87 (yTrue yPred : List Bool)
    (hlen : yTrue.length = yPred.length)
    (htp : countTP yTrue yPred = 8) (hfp : countFP yTrue yPred = 2)
    (hfn : countFN yTrue yPred = 3) (htn : countTN yTrue yPred = 87) :
    compute_metrics yTrue yPred = .ok
      { accuracy := 19/20, precision := 4/5, recall' := 8/11, f1 := 16/21,
        true_negatives := 87, false_positives := 2, false_negatives := 3,
        true_positives := 8, specificity := 87/89, fpr := 2/89, fnr := 3/11 } := by
  have hzl : (yTrue.zip yPred).length = 100 := by
    have h := length_eq_confusion_sum (yTrue.zip yPred)
    unfold countTP at htp; unfold countFP at hfp; unfold countFN at hfn; unfold countTN at htn
    omega
  have hlen100 : yTrue.length = 100 := by
    have h : (yTrue.zip yPred).length = min yTrue.length yPred.length := List.length_zip yTrue yPred
    omega
  have hacc : ((yTrue.zip yPred).countP fun p => p.1 == p.2) = 95 := by
    have h := countEq_eq_tp_add_tn (yTrue.zip yPred)
    unfold countTP at htp; unfold countTN at htn
    omega
  have hct : true ∈ yTrue := mem_true_of_countTP_pos (by rw [htp]; decide)
  have hcf : false ∈ yTrue := mem_false_of_countTN_pos (by rw [htn]; decide)
  have hpl : (presentLabels yTrue yPred).length = 2 := by
    simp [presentLabels, hct, hcf]
  rw [compute_metrics]
  rw [if_neg (by omega)]
  simp only [htp, hfp, hfn, htn, hacc, hlen100, hpl, if_pos rfl]
  norm_num [Metrics.mk.injEq]

def c8YTrue : List Bool :=
  List.replicate 8 true ++ List.replicate 2 false ++ List.replicate 3 true ++
    List.replicate 87 false

def c8YPred : List Bool := List.replicate 10 true ++ List.replicate 90 false

theorem compute_metrics_confusion_8_2_3_87_witness :
    compute_metrics c8YTrue c8YPred = .ok
      { accuracy := 19/20, precision := 4/5, recall' := 8/11, f1 := 16/21,
        true_negatives := 87, false_positives := 2, false_negatives := 3,
        true_positives := 8, specificity := 87/89, fpr := 2/89, fnr := 3/11 } :=
  compute_metrics_confusion_8_2_3_87 c8YTrue c8YPred (by decide) (by decide) (by decide)
    (by decide) (by decide)

/-! ### Class weights (`src/training/utils.py`, `compute_class_weights`;
`src/training/train.py`, `FraudDetectionTrainer.setup_training`) -/

/-- `compute_class_weights`: `torch.unique` returns the sorted distinct
labels present; weights are `len(labels) / (len(unique) * counts)`. -/
def compute_class_weights (labels : List Bool) : List ℚ :=
  let uniqueLabels :=
    (if labels.contains false then [false] else []) ++
      (if labels.contains true then [true] else [])
  uniqueLabels.map fun c =>
    (labels.length : ℚ) / ((uniqueLabels.length : ℚ) * (labels.count c : ℚ))

/-- The `pos_weight = class_weights[1] / class_weights[0]` computation in
`setup_training` (with `use_class_weights=True`); `none` models the Python
`IndexError` when the weight vector has fewer than two entries. -/
def setup_pos_weight (labels : List Bool) : Option ℚ :=
  let w := compute_class_weights labels
  match w[1]?, w[0]? with
  | some w1, some w0 => some (w1 / w0)
  | _, _ => none

/-- C5: when the training partition contains both classes, the positive-class
weight handed to `BCEWithLogitsLoss` equals
(non-fraud count) / (fraud count) over the training labels. -/
theorem pos_weight_eq_neg_over_pos (labels : List Bool)
    (h0 : false ∈ labels) (h1 : true ∈ labels) :
    setup_pos_weight labels =
      some ((labels.count false : ℚ) / (labels.count true : ℚ)) := by
  have hc0 := List.elem_eq_true_of_mem h0
  have hc1 := List.elem_eq_true_of_mem h1
  have hlen : ((labels.length : ℚ)) ≠ 0 := by
    have : 0 < labels.length := List.length_pos_of_mem h0
    positivity
  have hcnt1 : ((labels.count true : ℚ)) ≠ 0 := by
    have : 0 < labels.count true := List.count_pos_iff.mpr h1
    positivity
  simp only [setup_pos_weight, compute_class_weights, List.contains, hc0, hc1, if_true,
    List.singleton_append, List.map_cons, List.map_nil, List.length_cons, List.length_singleton]
  have hcnt0 : ((labels.count false : ℚ)) ≠ 0 := by
    have : 0 < labels.count false := List.count_pos_iff.mpr h0
    positivity
  norm_num
  field_simp
  ring

theorem pos_weight_eq_neg_over_pos_witness :
    setup_pos_weight [false, false, false, true] =
      some (((([false, false, false, true] : List Bool).count false : ℚ)) /
        ((([false, false, false, true] : List Bool).count true : ℚ))) :=
  pos_weight_eq_neg_over_pos [false, false, false, true] (by decide) (by decide)

/-- C10: if the training partition holds a single label class,
`compute_class_weights` returns a one-element weight vector and the
`class_weights[1]` access in `setup_training` is out of bounds (an error),
rather than silently producing a degenerate weight. -/
theorem single_class_pos_weight_error (labels : List Bool) (c : Bool)
    (hne : labels ≠ []) (hall : ∀ x ∈ labels, x = c) :
    (compute_class_weights labels).length = 1 ∧ setup_pos_weight labels = none := by
  have hcc : labels.contains c = true := by
    obtain ⟨y, ys, rfl⟩ := List.exists_cons_of_ne_nil hne
    have hy : y = c := hall y (by simp)
    subst hy
    simp [List.contains_cons]
  have hnc : labels.contains (!c) = false := by
    cases hx : labels.contains (!c) with
    | false => rfl
    | true =>
      have hm : (!c) ∈ labels := List.mem_of_elem_eq_true hx
      have := hall _ hm
      cases c <;> simp_all
  have hmem : c ∈ labels := List.mem_of_elem_eq_true hcc
  have hnmem : ¬ (!c) ∈ labels := by
    intro hm
    have h' := List.elem_eq_true_of_mem hm
    simp only [List.contains] at hnc
    rw [h'] at hnc
    simp at hnc
  cases c with
  | false =>
    have hnm : ¬ true ∈ labels := by simpa using hnmem
    refine ⟨?_, ?_⟩
    · simp [compute_class_weights, hmem, hnm]
    · simp [setup_pos_weight, compute_class_weights, hmem, hnm]
  | true =>
    have hnm : ¬ false ∈ labels := by simpa using hnmem
    refine ⟨?_, ?_⟩
    · simp [compute_class_weights, hmem, hnm]
    · simp [setup_pos_weight, compute_class_weights, hmem, hnm]

theorem single_class_pos_weight_error_witness :
    (compute_class_weights [false, false]).length = 1 ∧
      setup_pos_weight [false, false] = none :=
  single_class_pos_weight_error [false, false] false (by decide) (by decide)

/-! ### Early stopping and the training loop (`src/training/utils.py`,
`EarlyStopping`; `src/training/train.py`, `FraudDetectionTrainer.train`)

The training loop is driven by the sequence of per-epoch validation F1
scores (epoch 1, 2, …); everything the loop does with a score is compare
it, so the sequence is the loop's input here. -/

structure EarlyStopping where
  patience : ℕ
  min_delta : ℚ
  counter : ℕ
  best_score : Option ℚ
  early_stop : Bool
  deriving Repr, DecidableEq

def EarlyStopping.start (patience : ℕ) (min_delta : ℚ) : EarlyStopping :=
  { patience := patience, min_delta := min_delta, counter := 0,
    best_score := none, early_stop := false }

/-- `EarlyStopping.__call__` with `mode='max'` (the trainer's mode):
`is_better new best ↔ new > best + min_delta`.  Returns the updated state
and whether training should stop. -/
def EarlyStopping.call (s : EarlyStopping) (score : ℚ) : EarlyStopping × Bool :=
  match s.best_score with
  | none => ({ s with best_score := some score }, false)
  | some best =>
    if best + s.min_delta < score then
      ({ s with best_score := some score, counter := 0 }, false)
    else if s.patience ≤ s.counter + 1 then
      ({ s with counter := s.counter + 1, early_stop := true }, true)
    else
      ({ s with counter := s.counter + 1 }, false)

structure TrainResult where
  halt_epoch : ℕ
  early_stopped : Bool
  best_val_f1 : ℚ
  best_epoch : ℕ
  checkpoint : Option (ℕ × ℚ)
  deriving Repr, DecidableEq

/-- One step of `FraudDetectionTrainer.train`'s epoch loop: at each epoch the
checkpoint is (re)saved when `val_f1 > best_val_f1` (all writes go to the same
`best_<model>.pt` path, so the last write is what persists), and afterwards
`early_stopping(val_f1)` may break the loop.  `remaining` counts the epochs
still allowed by `num_epochs`. -/
def trainGo (valF1 : ℕ → ℚ) :
    ℕ → EarlyStopping → ℚ → ℕ → Option (ℕ × ℚ) → ℕ → TrainResult
  | 0, _, best, bestEp, ckpt, epoch =>
    ⟨epoch - 1, false, best, bestEp, ckpt⟩
  | remaining + 1, es, best, bestEp, ckpt, epoch =>
    if best < valF1 epoch then
      if (es.call (valF1 epoch)).2 then
        ⟨epoch, true, valF1 epoch, epoch, some (epoch, valF1 epoch)⟩
      else
        trainGo valF1 remaining (es.call (valF1 epoch)).1 (valF1 epoch) epoch
          (some (epoch, valF1 epoch)) (epoch + 1)
    else
      if (es.call (valF1 epoch)).2 then
        ⟨epoch, true, best, bestEp, ckpt⟩
      else
        trainGo valF1 remaining (es.call (valF1 epoch)).1 best bestEp ckpt (epoch + 1)

/-- `FraudDetectionTrainer.train` with `save_best=True`: patience is the
trainer's `patience`, `min_delta` is hard-coded to `0.001`, `best_val_f1`
starts at 0 and epochs run from 1 to `num_epochs`. -/
def FraudDetectionTrainer.train (patience num_epochs : ℕ) (valF1 : ℕ → ℚ) : TrainResult :=
  trainGo valF1 num_epochs (EarlyStopping.start patience (1/1000)) 0 0 none 1

/-- The validation-F1 sequence of the C1 counterexample: a small improvement
(0.5 → 0.5005, below `min_delta = 0.001`) at epoch 2, then a plateau. -/
def plateauF1 : ℕ → ℚ := fun e => if e = 1 then 1/2 else if e = 2 then 1001/2000 else 2/5

/-- C1 counterexample: with `patience = 2` and `num_epochs = 6`, the sequence
`plateauF1` has its (strictly) best value at epoch 2 and never improves
afterwards (a plateau of 4 > patience epochs), yet training halts at epoch 3,
not at epoch 2 + 2 = 4: the epoch-2 improvement is below `min_delta`, so the
early-stopping counter was already running at the best epoch.  The last
checkpoint written is the best epoch's, as the claim says — only the
"halts exactly `patience` epochs after the best epoch" part fails. -/
theorem train_halts_before_patience_after_best :
    (plateauF1 1 < plateauF1 2 ∧ plateauF1 3 < plateauF1 2 ∧ plateauF1 4 < plateauF1 2 ∧
      plateauF1 5 < plateauF1 2 ∧ plateauF1 6 < plateauF1 2) ∧
    (FraudDetectionTrainer.train 2 6 plateauF1).halt_epoch = 3 ∧
    (FraudDetectionTrainer.train 2 6 plateauF1).halt_epoch ≠ 2 + 2 ∧
    (FraudDetectionTrainer.train 2 6 plateauF1).checkpoint = some (2, 1001/2000) := by
  have heval : FraudDetectionTrainer.train 2 6 plateauF1 =
      ⟨3, true, 1001/2000, 2, some (2, 1001/2000)⟩ := by
    rw [FraudDetectionTrainer.train, EarlyStopping.start]
    rw [show (6:ℕ) = 5 + 1 from rfl, trainGo]
    norm_num [plateauF1, EarlyStopping.call]
    rw [show (5:ℕ) = 4 + 1 from rfl, trainGo]
    norm_num [plateauF1, EarlyStopping.call]
    rw [show (4:ℕ) = 3 + 1 from rfl, trainGo]
    norm_num [plateauF1, EarlyStopping.call]
  rw [heval]
  exact ⟨by norm_num [plateauF1], by norm_num, by norm_num, by norm_num⟩

theorem call_improve (s : EarlyStopping) (best score : ℚ) (h : s.best_score = some best)
    (h2 : best + s.min_delta < score) :
    s.call score = ({ s with best_score := some score, counter := 0 }, false) := by
  rw [EarlyStopping.call, h]
  simp [if_pos h2]

theorem call_stop (s : EarlyStopping) (best score : ℚ) (h : s.best_score = some best)
    (h2 : ¬ best + s.min_delta < score) (h3 : s.patience ≤ s.counter + 1) :
    s.call score = ({ s with counter := s.counter + 1, early_stop := true }, true) := by
  rw [EarlyStopping.call, h]
  simp [if_neg h2, if_pos h3]

theorem call_wait (s : EarlyStopping) (best score : ℚ) (h : s.best_score = some best)
    (h2 : ¬ best + s.min_delta < score) (h3 : ¬ s.patience ≤ s.counter + 1) :
    s.call score = ({ s with counter := s.counter + 1 }, false) := by
  rw [EarlyStopping.call, h]
  simp [if_neg h2, if_neg h3]

/-- Running the loop from epoch `e` with the early-stopping best equal to the
checkpointed best `M` and `counter = c`: if the next `m + 1` scores stay at or
below `M`, the loop stops exactly when the counter reaches `patience`,
leaving best value and checkpoint untouched. -/
theorem trainGo_plateau (f : ℕ → ℚ) (p : ℕ) (M : ℚ) (bEp : ℕ) :
    ∀ (m c e r : ℕ), c + (m + 1) = p → m + 1 ≤ r →
      (∀ j, j ≤ m → f (e + j) ≤ M) →
      trainGo f r ⟨p, 1/1000, c, some M, false⟩ M bEp (some (bEp, M)) e =
        ⟨e + m, true, M, bEp, some (bEp, M)⟩ := by
  intro m
  induction m with
  | zero =>
    intro c e r hc hr hplat
    obtain ⟨r', rfl⟩ : ∃ r', r = r' + 1 := ⟨r - 1, by omega⟩
    rw [trainGo]
    have hfe : f e ≤ M := by simpa using hplat 0 (Nat.le_refl 0)
    rw [if_neg (not_lt.mpr hfe)]
    rw [call_stop _ M _ rfl (by simp only []; linarith) (by simp only []; omega)]
    simp
  | succ m ih =>
    intro c e r hc hr hplat
    obtain ⟨r', rfl⟩ : ∃ r', r = r' + 1 := ⟨r - 1, by omega⟩
    rw [trainGo]
    have hfe : f e ≤ M := by simpa using hplat 0 (Nat.zero_le _)
    rw [if_neg (not_lt.mpr hfe)]
    rw [call_wait _ M _ rfl (by simp only []; linarith) (by simp only []; omega)]
    simp only []
    rw [show e + (m + 1) = e + 1 + m from by omega]
    exact ih (c + 1) (e + 1) r' (by omega) (by omega)
      (fun j hj => by
        have h := hplat (j + 1) (by omega)
        rw [show e + 1 + j = e + (j + 1) from by omega]
        exact h)

/-- Running the loop from epoch `e + 1`, where epoch `e` (1 ≤ e ≤ b) ended a
strictly improving prefix: best score `f e`, counter 0, checkpoint `(e, f e)`.
If scores keep improving by more than min_delta up to epoch `b` and then stay
at or below `f b` through epoch `n`, the run halts at epoch `b + patience`
with the checkpoint still at `(b, f b)`. -/
theorem trainGo_incr (f : ℕ → ℚ) (p n b : ℕ) (hp : 0 < p) (hbn : b + p ≤ n)
    (hplat : ∀ e, b < e → e ≤ n → f e ≤ f b)
    (hmono : ∀ e, 1 ≤ e → e < b → f e + 1/1000 < f (e + 1)) :
    ∀ (k e : ℕ), e + k = b → 1 ≤ e →
      trainGo f (n - e) ⟨p, 1/1000, 0, some (f e), false⟩ (f e) e (some (e, f e)) (e + 1) =
        ⟨b + p, true, f b, b, some (b, f b)⟩ := by
  intro k
  induction k with
  | zero =>
    intro e hk he
    have heb : e = b := by omega
    subst heb
    rw [show (⟨e + p, true, f e, e, some (e, f e)⟩ : TrainResult) =
        ⟨e + 1 + (p - 1), true, f e, e, some (e, f e)⟩ from by
      rw [show e + 1 + (p - 1) = e + p from by omega]]
    exact trainGo_plateau f p (f e) e (p - 1) 0 (e + 1) (n - e) (by omega) (by omega)
      (fun j hj => hplat (e + 1 + j) (by omega) (by omega))
  | succ k ih =>
    intro e hk he
    have heb : e < b := by omega
    obtain ⟨r', hr'⟩ : ∃ r', n - e = r' + 1 := ⟨n - e - 1, by omega⟩
    rw [hr', trainGo]
    have himp : f e + 1/1000 < f (e + 1) := hmono e he heb
    rw [if_pos (by linarith : f e < f (e + 1))]
    rw [call_improve _ (f e) _ rfl (by simp only []; exact himp)]
    simp only []
    rw [show r' = n - (e + 1) from by omega]
    exact ih (e + 1) (by omega) (by omega)

/-- C1 (amended): the claim holds once the pre-plateau scores genuinely
improve: if the validation F1 improves by more than `min_delta = 0.001` at
every epoch up to the best epoch `b` (with `f 1 > 0`), no later score exceeds
`f b`, and `b + patience ≤ num_epochs`, then training halts exactly
`patience` epochs after `b` and the last checkpoint persisted is the one
written at epoch `b` — not the final epoch's parameters. -/
theorem train_early_stopping_amended (p n b : ℕ) (f : ℕ → ℚ)
    (hp : 0 < p) (hb : 1 ≤ b) (hbn : b + p ≤ n) (hf1 : 0 < f 1)
    (hmono : ∀ e, 1 ≤ e → e < b → f e + 1/1000 < f (e + 1))
    (hplat : ∀ e, b < e → e ≤ n → f e ≤ f b) :
    (FraudDetectionTrainer.train p n f).halt_epoch = b + p ∧
    (FraudDetectionTrainer.train p n f).early_stopped = true ∧
    (FraudDetectionTrainer.train p n f).checkpoint = some (b, f b) := by
  have heval : FraudDetectionTrainer.train p n f = ⟨b + p, true, f b, b, some (b, f b)⟩ := by
    rw [FraudDetectionTrainer.train, EarlyStopping.start]
    obtain ⟨r', hr'⟩ : ∃ r', n = r' + 1 := ⟨n - 1, by omega⟩
    rw [hr', trainGo]
    rw [if_pos hf1]
    rw [show EarlyStopping.call ⟨p, 1/1000, 0, none, false⟩ (f 1) =
        (⟨p, 1/1000, 0, some (f 1), false⟩, false) from rfl]
    simp only []
    rw [show r' = n - 1 from by omega]
    exact trainGo_incr f p n b hp hbn hplat hmono (b - 1) 1 (by omega) (le_refl 1)
  rw [heval]
  exact ⟨rfl, rfl, rfl⟩

def wF1 : ℕ → ℚ := fun e => if e = 1 then 1/2 else if e = 2 then 3/4 else 1/2

theorem train_early_stopping_amended_witness :
    (FraudDetectionTrainer.train 2 5 wF1).halt_epoch = 2 + 2 ∧
    (FraudDetectionTrainer.train 2 5 wF1).early_stopped = true ∧
    (FraudDetectionTrainer.train 2 5 wF1).checkpoint = some (2, wF1 2) :=
  train_early_stopping_amended 2 5 2 wF1 (by norm_num) (by norm_num) (by norm_num)
    (by norm_num [wF1])
    (fun e h1 h2 => by
      have he : e = 1 := by omega
      subst he
      norm_num [wF1])
    (fun e h1 h2 => by
      interval_cases e <;> norm_num [wF1])

/-! ### Graph construction (`src/graph/build_graph.py`, `GraphBuilder`)

Rows are the fetched database records; identifiers are `ℕ`.  The numeric
feature transforms (`log1p`, per-column standardization) act only on the
real-valued feature entries, never on indices or labels, so edge features are
carried here as the raw selected columns. -/

structure TxnRow where
  account_id : ℕ
  merchant_id : ℕ
  device_id : Option ℕ
  transaction_amount : ℚ
  transaction_hour : ℚ
  transaction_day_of_week : ℚ
  is_fraud : Bool
  deriving Repr, DecidableEq

structure SharedDeviceRow where
  device_id : ℕ
  account_id : ℕ
  transaction_count : ℚ
  fraud_count : ℚ
  deriving Repr, DecidableEq

structure AccountRow where
  account_id : ℕ
  fraud_flag : Bool
  deriving Repr, DecidableEq

/-- The node mapping produced by `create_node_mappings`'s dict comprehension
`{id: idx for idx, id in enumerate(ids)}`: looking up `x` yields the position
of its last occurrence (later enumerate entries overwrite earlier ones). -/
def dictIndex : List ℕ → ℕ → Option ℕ
  | [], _ => none
  | a :: rest, x =>
    match dictIndex rest x with
    | some i => some (i + 1)
    | none => if a = x then some 0 else none

theorem dictIndex_lt {ids : List ℕ} {x i : ℕ} (h : dictIndex ids x = some i) :
    i < ids.length := by
  induction ids generalizing i with
  | nil => simp [dictIndex] at h
  | cons a rest ih =>
    rw [dictIndex] at h
    cases hr : dictIndex rest x with
    | some j =>
      rw [hr] at h
      have hj := ih hr
      simp only [Option.some.injEq] at h
      simp [← h]
      omega
    | none =>
      rw [hr] at h
      by_cases hax : a = x
      · rw [if_pos hax] at h
        simp only [Option.some.injEq] at h
        simp [← h]
      · rw [if_neg hax] at h
        exact absurd h (by simp)

theorem dictIndex_isSome_of_contains {ids : List ℕ} {x : ℕ}
    (h : ids.contains x = true) : (dictIndex ids x).isSome = true := by
  induction ids with
  | nil => simp at h
  | cons a rest ih =>
    rw [dictIndex]
    cases hr : dictIndex rest x with
    | some j => simp
    | none =>
      simp only [List.contains_cons] at h
      rcases Bool.or_eq_true_iff.mp h with hax | hrest
      · have hax' : x = a := by simpa using hax
        rw [if_pos hax'.symm]
        simp
      · have := ih hrest
        rw [hr] at this
        simp at this

/-- `GraphBuilder.build_transaction_edges`: keep only rows whose
`account_id`/`merchant_id` are keys of the node mappings, map the surviving
endpoints to indices, and emit `(edge_index, edge_features, edge_labels)`. -/
def build_transaction_edges (txns : List TxnRow) (accountIds merchantIds : List ℕ) :
    List (ℕ × ℕ) × List (List ℚ) × List Bool :=
  let valid := txns.filter fun t =>
    accountIds.contains t.account_id && merchantIds.contains t.merchant_id
  (valid.map fun t =>
      ((dictIndex accountIds t.account_id).getD 0, (dictIndex merchantIds t.merchant_id).getD 0),
   valid.map fun t =>
      [t.transaction_amount, t.transaction_hour, t.transaction_day_of_week],
   valid.map fun t => t.is_fraud)

/-- `GraphBuilder.build_device_edges`: keep rows with a resolvable
`account_id` and a non-null, resolvable `device_id`. -/
def build_device_edges (txns : List TxnRow) (accountIds deviceIds : List ℕ) :
    List (ℕ × ℕ) × List (List ℚ) :=
  let valid := txns.filter fun t =>
    accountIds.contains t.account_id &&
      (match t.device_id with
       | some d => deviceIds.contains d
       | none => false)
  (valid.map fun t =>
      ((dictIndex accountIds t.account_id).getD 0,
        (t.device_id.bind (dictIndex deviceIds)).getD 0),
   valid.map fun t => [t.transaction_amount])

/-- `GraphBuilder.build_shared_device_edges`. -/
def build_shared_device_edges (rows : List SharedDeviceRow) (accountIds deviceIds : List ℕ) :
    List (ℕ × ℕ) × List (List ℚ) :=
  let valid := rows.filter fun r =>
    accountIds.contains r.account_id && deviceIds.contains r.device_id
  (valid.map fun r =>
      ((dictIndex accountIds r.account_id).getD 0, (dictIndex deviceIds r.device_id).getD 0),
   valid.map fun r => [r.transaction_count, r.fraud_count])

theorem dictIndex_getD_lt {ids : List ℕ} {x : ℕ} (h : ids.contains x = true) :
    (dictIndex ids x).getD 0 < ids.length := by
  have hs := dictIndex_isSome_of_contains h
  obtain ⟨i, hi⟩ := Option.isSome_iff_exists.mp hs
  rw [hi]
  exact dictIndex_lt hi

/-- C3: for the transaction, device-usage and shared-device relations, every
emitted edge pair `(src, dst)` satisfies `src < node_count(source type)` and
`dst < node_count(destination type)`: rows whose identifiers are absent from
the node mappings are filtered out first and never yield a dangling index. -/
theorem edge_indices_within_bounds
    (txns : List TxnRow) (sharedRows : List SharedDeviceRow)
    (accountIds merchantIds deviceIds : List ℕ) :
    (∀ e ∈ (build_transaction_edges txns accountIds merchantIds).1,
        e.1 < accountIds.length ∧ e.2 < merchantIds.length) ∧
    (∀ e ∈ (build_device_edges txns accountIds deviceIds).1,
        e.1 < accountIds.length ∧ e.2 < deviceIds.length) ∧
    (∀ e ∈ (build_shared_device_edges sharedRows accountIds deviceIds).1,
        e.1 < accountIds.length ∧ e.2 < deviceIds.length) := by
  refine ⟨?_, ?_, ?_⟩
  · intro e he
    simp only [build_transaction_edges, List.mem_map] at he
    obtain ⟨t, ht, rfl⟩ := he
    obtain ⟨-, hpred⟩ := List.mem_filter.mp ht
    obtain ⟨ha, hm⟩ := Bool.and_eq_true_iff.mp hpred
    exact ⟨dictIndex_getD_lt ha, dictIndex_getD_lt hm⟩
  · intro e he
    simp only [build_device_edges, List.mem_map] at he
    obtain ⟨t, ht, rfl⟩ := he
    obtain ⟨-, hpred⟩ := List.mem_filter.mp ht
    obtain ⟨ha, hd⟩ := Bool.and_eq_true_iff.mp hpred
    refine ⟨dictIndex_getD_lt ha, ?_⟩
    cases hdev : t.device_id with
    | none => rw [hdev] at hd; simp at hd
    | some d =>
      rw [hdev] at hd
      simp only [hdev, Option.bind_some]
      exact dictIndex_getD_lt hd
  · intro e he
    simp only [build_shared_device_edges, List.mem_map] at he
    obtain ⟨r, hr, rfl⟩ := he
    obtain ⟨-, hpred⟩ := List.mem_filter.mp hr
    obtain ⟨ha, hd⟩ := Bool.and_eq_true_iff.mp hpred
    exact ⟨dictIndex_getD_lt ha, dictIndex_getD_lt hd⟩

def c3Txns : List TxnRow :=
  [⟨10, 20, some 30, 5, 1, 2, true⟩, ⟨99, 20, none, 1, 1, 1, false⟩]

def c3SharedRows : List SharedDeviceRow := [⟨30, 11, 2, 1⟩]

theorem edge_indices_within_bounds_witness :
    (0, 0).1 < ([10, 11] : List ℕ).length ∧ (0, 0).2 < ([20] : List ℕ).length :=
  (edge_indices_within_bounds c3Txns c3SharedRows [10, 11] [20] [30]).1 (0, 0) (by decide)

structure Relation where
  edge_index : List (ℕ × ℕ)
  edge_attr : Option (List (List ℚ))
  edge_label : Option (List Bool)
  deriving Repr, DecidableEq

structure HeteroGraphData where
  account_y : List Bool
  transacts_with : Relation
  rev_transacts_with : Relation
  uses : Relation
  used_by : Relation
  shares : Relation
  shared_by : Relation
  deriving Repr, DecidableEq

/-- `GraphBuilder.build_hetero_graph` (edge/label structure): forward
relations are built by the edge builders; each reverse relation is the
forward `edge_index` with source/destination stacked in swapped order.
Only `('account','transacts_with','merchant')` is given `edge_label`;
`('device','shared_by','account')` also carries the forward `edge_attr`,
and no reverse relation carries a label. -/
def build_hetero_graph (accounts : List AccountRow) (merchantIds deviceIds : List ℕ)
    (txns : List TxnRow) (sharedRows : List SharedDeviceRow) : HeteroGraphData :=
  let accountIds := accounts.map fun a => a.account_id
  let txnE := build_transaction_edges txns accountIds merchantIds
  let devE := build_device_edges txns accountIds deviceIds
  let shE := build_shared_device_edges sharedRows accountIds deviceIds
  { account_y := accounts.map fun a => a.fraud_flag
    transacts_with := ⟨txnE.1, some txnE.2.1, some txnE.2.2⟩
    rev_transacts_with := ⟨txnE.1.map fun e => (e.2, e.1), none, none⟩
    uses := ⟨devE.1, some devE.2, none⟩
    used_by := ⟨devE.1.map fun e => (e.2, e.1), none, none⟩
    shares := ⟨shE.1, some shE.2, none⟩
    shared_by := ⟨shE.1.map fun e => (e.2, e.1), some shE.2, none⟩ }

theorem mem_map_swap {l : List (ℕ × ℕ)} {u v : ℕ} :
    ((v, u) ∈ l.map fun e => (e.2, e.1)) ↔ (u, v) ∈ l := by
  constructor
  · intro h
    obtain ⟨⟨a, b⟩, hab, heq⟩ := List.mem_map.mp h
    simp only [Prod.mk.injEq] at heq
    rw [← heq.1, ← heq.2]
    exact hab
  · intro h
    exact List.mem_map.mpr ⟨(u, v), h, rfl⟩

/-- C6: in the assembled graph, each synthesized reverse relation contains
`(v, u)` exactly when the forward relation contains `(u, v)`, has the same
edge count as its forward relation, and carries no fraud edge-label; the
forward transaction relation is the only relation with an `edge_label`. -/
theorem reverse_edges_mirror_forward (accounts : List AccountRow)
    (merchantIds deviceIds : List ℕ) (txns : List TxnRow)
    (sharedRows : List SharedDeviceRow) :
    (∀ u v : ℕ,
      (u, v) ∈ (build_hetero_graph accounts merchantIds deviceIds txns sharedRows).transacts_with.edge_index ↔
      (v, u) ∈ (build_hetero_graph accounts merchantIds deviceIds txns sharedRows).rev_transacts_with.edge_index) ∧
    (build_hetero_graph accounts merchantIds deviceIds txns sharedRows).rev_transacts_with.edge_index.length =
      (build_hetero_graph accounts merchantIds deviceIds txns sharedRows).transacts_with.edge_index.length ∧
    (∀ u v : ℕ,
      (u, v) ∈ (build_hetero_graph accounts merchantIds deviceIds txns sharedRows).uses.edge_index ↔
      (v, u) ∈ (build_hetero_graph accounts merchantIds deviceIds txns sharedRows).used_by.edge_index) ∧
    (build_hetero_graph accounts merchantIds deviceIds txns sharedRows).used_by.edge_index.length =
      (build_hetero_graph accounts merchantIds deviceIds txns sharedRows).uses.edge_index.length ∧
    (∀ u v : ℕ,
      (u, v) ∈ (build_hetero_graph accounts merchantIds deviceIds txns sharedRows).shares.edge_index ↔
      (v, u) ∈ (build_hetero_graph accounts merchantIds deviceIds txns sharedRows).shared_by.edge_index) ∧
    (build_hetero_graph accounts merchantIds deviceIds txns sharedRows).shared_by.edge_index.length =
      (build_hetero_graph accounts merchantIds deviceIds txns sharedRows).shares.edge_index.length ∧
    (build_hetero_graph accounts merchantIds deviceIds txns sharedRows).rev_transacts_with.edge_label = none ∧
    (build_hetero_graph accounts merchantIds deviceIds txns sharedRows).used_by.edge_label = none ∧
    (build_hetero_graph accounts merchantIds deviceIds txns sharedRows).shared_by.edge_label = none ∧
    (build_hetero_graph accounts merchantIds deviceIds txns sharedRows).uses.edge_label = none ∧
    (build_hetero_graph accounts merchantIds deviceIds txns sharedRows).shares.edge_label = none ∧
    (build_hetero_graph accounts merchantIds deviceIds txns sharedRows).transacts_with.edge_label =
      some (build_transaction_edges txns (accounts.map fun a => a.account_id) merchantIds).2.2 := by
  refine ⟨fun u v => mem_map_swap.symm, ?_, fun u v => mem_map_swap.symm, ?_,
    fun u v => mem_map_swap.symm, ?_, rfl, rfl, rfl, rfl, rfl, rfl⟩ <;>
    simp [build_hetero_graph]

/-- The `graph_stats` dictionary stored by `build_hetero_graph`: node counts,
kept edge counts (shared-device count doubled for bidirectionality), the
transaction-edge fraud rate and the fraud-account count — these keys and
nothing else. -/
def graph_stats_of (accounts : List AccountRow) (merchantIds deviceIds : List ℕ)
    (txns : List TxnRow) (sharedRows : List SharedDeviceRow) : List (String × ℚ) :=
  let accountIds := accounts.map fun a => a.account_id
  let txnE := build_transaction_edges txns accountIds merchantIds
  let devE := build_device_edges txns accountIds deviceIds
  let shE := build_shared_device_edges sharedRows accountIds deviceIds
  [("num_accounts", (accounts.length : ℚ)),
   ("num_merchants", (merchantIds.length : ℚ)),
   ("num_devices", (deviceIds.length : ℚ)),
   ("num_transactions", (txnE.1.length : ℚ)),
   ("num_device_usage", (devE.1.length : ℚ)),
   ("num_shared_devices", (2 * shE.1.length : ℚ)),
   ("fraud_rate", ((txnE.2.2.countP fun b => b : ℕ) : ℚ) / (txnE.2.2.length : ℚ)),
   ("fraud_accounts", ((accounts.countP fun a => a.fraud_flag : ℕ) : ℚ))]

def c7Accounts : List AccountRow := [⟨1, true⟩, ⟨2, false⟩]

def c7Txns : List TxnRow := [⟨1, 5, some 7, 10, 3, 2, true⟩]

/-- A transaction row whose `account_id` (3) is absent from the account
mapping: `build_transaction_edges` and `build_device_edges` drop it. -/
def c7Dangling : TxnRow := ⟨3, 5, some 7, 4, 1, 1, false⟩

/-- C7 counterexample: the build statistics contain no dropped-row count.
Adding a droppable row (unresolvable `account_id`) changes the statistics in
no way — the stats of the run that dropped one row equal those of the run
that dropped none, so no statistic can report the drop count (the kept-edge
count is also unchanged, confirming the row was dropped). -/
theorem graph_stats_lack_drop_count :
    graph_stats_of c7Accounts [5] [7] (c7Txns ++ [c7Dangling]) [] =
      graph_stats_of c7Accounts [5] [7] c7Txns [] ∧
    (c7Txns ++ [c7Dangling]).length = c7Txns.length + 1 ∧
    (build_transaction_edges (c7Txns ++ [c7Dangling]) (c7Accounts.map fun a => a.account_id) [5]).1 =
      (build_transaction_edges c7Txns (c7Accounts.map fun a => a.account_id) [5]).1 := by
  exact ⟨rfl, rfl, rfl⟩

/-- C7 (amended): `graph_stats` records node counts, kept edge counts, the
transaction fraud rate and the fraud-account count, but no dropped-row
count: appending an input row whose `account_id` cannot be resolved in the
node mappings (so the row is dropped by every edge builder) leaves every
statistic unchanged.  Drop counts appear only in the build log. -/
theorem graph_stats_unchanged_by_dropped_row (accounts : List AccountRow)
    (merchantIds deviceIds : List ℕ) (txns : List TxnRow)
    (sharedRows : List SharedDeviceRow) (r : TxnRow)
    (hr : (accounts.map fun a => a.account_id).contains r.account_id = false) :
    graph_stats_of accounts merchantIds deviceIds (txns ++ [r]) sharedRows =
      graph_stats_of accounts merchantIds deviceIds txns sharedRows := by
  have hb1 : ((accounts.map fun a => a.account_id).contains r.account_id &&
      merchantIds.contains r.merchant_id) = false := by
    rw [hr, Bool.false_and]
  have hb2 : ((accounts.map fun a => a.account_id).contains r.account_id &&
      (match r.device_id with
       | some d => deviceIds.contains d
       | none => false)) = false := by
    rw [hr, Bool.false_and]
  simp only [graph_stats_of, build_transaction_edges, build_device_edges,
    build_shared_device_edges, List.filter_append, List.filter_cons, List.filter_nil,
    hb1, hb2, Bool.false_eq_true, if_false, List.append_nil]

def c7SharedRows : List SharedDeviceRow := [⟨7, 2, 3, 1⟩]

theorem graph_stats_unchanged_by_dropped_row_witness :
    graph_stats_of c7Accounts [5] [7] (c7Txns ++ [c7Dangling]) c7SharedRows =
      graph_stats_of c7Accounts [5] [7] c7Txns c7SharedRows :=
  graph_stats_unchanged_by_dropped_row c7Accounts [5] [7] c7Txns c7SharedRows c7Dangling
    (by decide)

/-! ### Stratified splitting (`src/training/utils.py`, `create_stratified_split`) -/

/-- `np.where(labels_np == label)[0]`: the increasing list of indices holding
class `c`. -/
def classIndices (labels : List Bool) (c : Bool) : List ℕ :=
  (List.range labels.length).filter fun i => labels.getD i false == c

/-- The per-class slicing of `create_stratified_split`: with
`train_end = int(n_class * train_ratio)` and
`val_end = train_end + int(n_class * val_ratio)`, the class's shuffled index
list contributes `idxs[:train_end]`, `idxs[train_end:val_end]` and
`idxs[val_end:]` to the train, validation and test masks respectively. -/
def splitClass (idxs : List ℕ) (train_ratio val_ratio : ℚ) :
    List ℕ × List ℕ × List ℕ :=
  let n := idxs.length
  let trainEnd := Nat.floor ((n : ℚ) * train_ratio)
  let valEnd := trainEnd + Nat.floor ((n : ℚ) * val_ratio)
  (idxs.take trainEnd, (idxs.drop trainEnd).take (valEnd - trainEnd), idxs.drop valEnd)

/-- `create_stratified_split`, parametrized by the two shuffled per-class
index lists (`np.random.shuffle` permutes `classIndices labels c` in place;
the theorems quantify over every permutation, covering the seeded one).
`test_ratio` is only asserted against in the source, never used.  Each mask
is represented by the list of indices it sets to `True`. -/
def create_stratified_split (labels : List Bool) (shuffled0 shuffled1 : List ℕ)
    (train_ratio val_ratio test_ratio : ℚ) : List ℕ × List ℕ × List ℕ :=
  ((splitClass shuffled0 train_ratio val_ratio).1 ++
      (splitClass shuffled1 train_ratio val_ratio).1,
   (splitClass shuffled0 train_ratio val_ratio).2.1 ++
      (splitClass shuffled1 train_ratio val_ratio).2.1,
   (splitClass shuffled0 train_ratio val_ratio).2.2 ++
      (splitClass shuffled1 train_ratio val_ratio).2.2)

theorem take_take_drop_partition (idxs : List ℕ) (a b : ℕ) :
    idxs.take a ++ ((idxs.drop a).take ((a + b) - a) ++ idxs.drop (a + b)) = idxs := by
  rw [Nat.add_sub_cancel_left]
  rw [← List.drop_drop]
  rw [List.take_append_drop, List.take_append_drop]

theorem splitClass_append (idxs : List ℕ) (tr vr : ℚ) :
    (splitClass idxs tr vr).1 ++
      ((splitClass idxs tr vr).2.1 ++ (splitClass idxs tr vr).2.2) = idxs := by
  simp only [splitClass]
  exact take_take_drop_partition idxs _ _

theorem classIndices_nodup (labels : List Bool) (c : Bool) :
    (classIndices labels c).Nodup :=
  List.Nodup.filter _ (List.nodup_range _)

theorem mem_classIndices {labels : List Bool} {c : Bool} {i : ℕ} :
    i ∈ classIndices labels c ↔ i < labels.length ∧ labels.getD i false = c := by
  simp [classIndices, List.mem_filter, List.mem_range]

theorem piece_cases {t v w : List ℕ} (hnd : (t ++ (v ++ w)).Nodup) {i : ℕ}
    (hi : i ∈ t ++ (v ++ w)) :
    (i ∈ t ∧ i ∉ v ∧ i ∉ w) ∨ (i ∉ t ∧ i ∈ v ∧ i ∉ w) ∨ (i ∉ t ∧ i ∉ v ∧ i ∈ w) := by
  rw [List.nodup_append] at hnd
  obtain ⟨hndt, hndvw, hdisj⟩ := hnd
  rw [List.nodup_append] at hndvw
  obtain ⟨hndv, hndw, hdisj2⟩ := hndvw
  rcases List.mem_append.mp hi with ht | hvw
  · exact Or.inl ⟨ht, fun hv => hdisj ht (List.mem_append.mpr (Or.inl hv)),
      fun hw => hdisj ht (List.mem_append.mpr (Or.inr hw))⟩
  · rcases List.mem_append.mp hvw with hv | hw
    · exact Or.inr (Or.inl ⟨fun ht => hdisj ht (List.mem_append.mpr (Or.inl hv)), hv,
        fun hw => hdisj2 hv hw⟩)
    · exact Or.inr (Or.inr ⟨fun ht => hdisj ht (List.mem_append.mpr (Or.inr hw)),
        fun hv => hdisj2 hv hw, hw⟩)

/-- C9: the train/validation/test masks returned by `create_stratified_split`
partition the node set — every node index lands in exactly one of the three
masks, and the masks contain only valid node indices. -/
theorem stratified_split_partitions (labels : List Bool) (shuffled0 shuffled1 : List ℕ)
    (tr vr te : ℚ)
    (h0 : shuffled0.Perm (classIndices labels false))
    (h1 : shuffled1.Perm (classIndices labels true))
    (hsum : tr + vr + te = 1) :
    (∀ i, i < labels.length →
      (i ∈ (create_stratified_split labels shuffled0 shuffled1 tr vr te).1 ∧
        i ∉ (create_stratified_split labels shuffled0 shuffled1 tr vr te).2.1 ∧
        i ∉ (create_stratified_split labels shuffled0 shuffled1 tr vr te).2.2) ∨
      (i ∉ (create_stratified_split labels shuffled0 shuffled1 tr vr te).1 ∧
        i ∈ (create_stratified_split labels shuffled0 shuffled1 tr vr te).2.1 ∧
        i ∉ (create_stratified_split labels shuffled0 shuffled1 tr vr te).2.2) ∨
      (i ∉ (create_stratified_split labels shuffled0 shuffled1 tr vr te).1 ∧
        i ∉ (create_stratified_split labels shuffled0 shuffled1 tr vr te).2.1 ∧
        i ∈ (create_stratified_split labels shuffled0 shuffled1 tr vr te).2.2)) ∧
    (∀ i, i ∈ (create_stratified_split labels shuffled0 shuffled1 tr vr te).1 ∨
        i ∈ (create_stratified_split labels shuffled0 shuffled1 tr vr te).2.1 ∨
        i ∈ (create_stratified_split labels shuffled0 shuffled1 tr vr te).2.2 →
      i < labels.length) := by
  have hnd0 : shuffled0.Nodup := h0.nodup_iff.mpr (classIndices_nodup labels false)
  have hnd1 : shuffled1.Nodup := h1.nodup_iff.mpr (classIndices_nodup labels true)
  have hcat0 := splitClass_append shuffled0 tr vr
  have hcat1 := splitClass_append shuffled1 tr vr
  have hsub0 : ∀ j, j ∈ (splitClass shuffled0 tr vr).1 ∨
      j ∈ (splitClass shuffled0 tr vr).2.1 ∨ j ∈ (splitClass shuffled0 tr vr).2.2 →
      j ∈ shuffled0 := by
    intro j hj
    rw [← hcat0]
    rcases hj with h | h | h
    · exact List.mem_append.mpr (Or.inl h)
    · exact List.mem_append.mpr (Or.inr (List.mem_append.mpr (Or.inl h)))
    · exact List.mem_append.mpr (Or.inr (List.mem_append.mpr (Or.inr h)))
  have hsub1 : ∀ j, j ∈ (splitClass shuffled1 tr vr).1 ∨
      j ∈ (splitClass shuffled1 tr vr).2.1 ∨ j ∈ (splitClass shuffled1 tr vr).2.2 →
      j ∈ shuffled1 := by
    intro j hj
    rw [← hcat1]
    rcases hj with h | h | h
    · exact List.mem_append.mpr (Or.inl h)
    · exact List.mem_append.mpr (Or.inr (List.mem_append.mpr (Or.inl h)))
    · exact List.mem_append.mpr (Or.inr (List.mem_append.mpr (Or.inr h)))
  constructor
  · intro i hi
    simp only [create_stratified_split, List.mem_append]
    cases hc : labels.getD i false with
    | false =>
      have hmem0 : i ∈ shuffled0 := h0.mem_iff.mpr (mem_classIndices.mpr ⟨hi, hc⟩)
      have hnot1 : i ∉ shuffled1 := by
        intro hm
        have h := (mem_classIndices.mp (h1.mem_iff.mp hm)).2
        rw [hc] at h
        simp at h
      have hndp : ((splitClass shuffled0 tr vr).1 ++
          ((splitClass shuffled0 tr vr).2.1 ++ (splitClass shuffled0 tr vr).2.2)).Nodup := by
        rw [hcat0]; exact hnd0
      have hip : i ∈ (splitClass shuffled0 tr vr).1 ++
          ((splitClass shuffled0 tr vr).2.1 ++ (splitClass shuffled0 tr vr).2.2) := by
        rw [hcat0]; exact hmem0
      have htri := piece_cases hndp hip
      have hn1t : i ∉ (splitClass shuffled1 tr vr).1 := fun h => hnot1 (hsub1 i (Or.inl h))
      have hn1v : i ∉ (splitClass shuffled1 tr vr).2.1 :=
        fun h => hnot1 (hsub1 i (Or.inr (Or.inl h)))
      have hn1w : i ∉ (splitClass shuffled1 tr vr).2.2 :=
        fun h => hnot1 (hsub1 i (Or.inr (Or.inr h)))
      rcases htri with ⟨ht, hv, hw⟩ | ⟨ht, hv, hw⟩ | ⟨ht, hv, hw⟩
      · exact Or.inl ⟨Or.inl ht, fun h => h.elim hv hn1v, fun h => h.elim hw hn1w⟩
      · exact Or.inr (Or.inl ⟨fun h => h.elim ht hn1t, Or.inl hv, fun h => h.elim hw hn1w⟩)
      · exact Or.inr (Or.inr ⟨fun h => h.elim ht hn1t, fun h => h.elim hv hn1v, Or.inl hw⟩)
    | true =>
      have hmem1 : i ∈ shuffled1 := h1.mem_iff.mpr (mem_classIndices.mpr ⟨hi, hc⟩)
      have hnot0 : i ∉ shuffled0 := by
        intro hm
        have h := (mem_classIndices.mp (h0.mem_iff.mp hm)).2
        rw [hc] at h
        simp at h
      have hndp : ((splitClass shuffled1 tr vr).1 ++
          ((splitClass shuffled1 tr vr).2.1 ++ (splitClass shuffled1 tr vr).2.2)).Nodup := by
        rw [hcat1]; exact hnd1
      have hip : i ∈ (splitClass shuffled1 tr vr).1 ++
          ((splitClass shuffled1 tr vr).2.1 ++ (splitClass shuffled1 tr vr).2.2) := by
        rw [hcat1]; exact hmem1
      have htri := piece_cases hndp hip
      have hn0t : i ∉ (splitClass shuffled0 tr vr).1 := fun h => hnot0 (hsub0 i (Or.inl h))
      have hn0v : i ∉ (splitClass shuffled0 tr vr).2.1 :=
        fun h => hnot0 (hsub0 i (Or.inr (Or.inl h)))
      have hn0w : i ∉ (splitClass shuffled0 tr vr).2.2 :=
        fun h => hnot0 (hsub0 i (Or.inr (Or.inr h)))
      rcases htri with ⟨ht, hv, hw⟩ | ⟨ht, hv, hw⟩ | ⟨ht, hv, hw⟩
      · exact Or.inl ⟨Or.inr ht, fun h => h.elim hn0v hv, fun h => h.elim hn0w hw⟩
      · exact Or.inr (Or.inl ⟨fun h => h.elim hn0t ht, Or.inr hv, fun h => h.elim hn0w hw⟩)
      · exact Or.inr (Or.inr ⟨fun h => h.elim hn0t ht, fun h => h.elim hn0v hv, Or.inr hw⟩)
  · intro i hi
    simp only [create_stratified_split, List.mem_append] at hi
    have hclass : i ∈ shuffled0 ∨ i ∈ shuffled1 := by
      rcases hi with h | h | h
      · rcases h with h | h
        · exact Or.inl (hsub0 i (Or.inl h))
        · exact Or.inr (hsub1 i (Or.inl h))
      · rcases h with h | h
        · exact Or.inl (hsub0 i (Or.inr (Or.inl h)))
        · exact Or.inr (hsub1 i (Or.inr (Or.inl h)))
      · rcases h with h | h
        · exact Or.inl (hsub0 i (Or.inr (Or.inr h)))
        · exact Or.inr (hsub1 i (Or.inr (Or.inr h)))
    rcases hclass with h | h
    · exact (mem_classIndices.mp (h0.mem_iff.mp h)).1
    · exact (mem_classIndices.mp (h1.mem_iff.mp h)).1

theorem stratified_split_partitions_witness :
    (0 : ℕ) < ([true, false, true, false] : List Bool).length :=
  (stratified_split_partitions [true, false, true, false] [3, 1] [0, 2] (1/2) (1/4) (1/4)
      (by decide) (by decide) (by norm_num)).2 0
    (Or.inl (by norm_num [create_stratified_split, splitClass]))

/-- Fraud rate of the nodes selected by an index list. -/
def fraudRate (labels : List Bool) (idxs : List ℕ) : ℚ :=
  ((idxs.countP fun i => labels.getD i false : ℕ) : ℚ) / (idxs.length : ℚ)

def populationFraudRate (labels : List Bool) : ℚ :=
  ((labels.count true : ℕ) : ℚ) / (labels.length : ℚ)

/-- The tolerance forced by the floor rounding of the per-class split points:
each per-class partition count differs from its exact (real-valued) value by
less than 2, which bounds the partition's fraud-rate deviation by
`6 / partition size`. -/
def splitTolerance (partitionSize : ℕ) : ℚ := 6 / (partitionSize : ℚ)

theorem floor_err (m : ℕ) (r : ℚ) (hr : 0 ≤ r) :
    |((Nat.floor ((m : ℚ) * r) : ℕ) : ℚ) - (m : ℚ) * r| < 1 := by
  have h1 : ((Nat.floor ((m : ℚ) * r) : ℕ) : ℚ) ≤ (m : ℚ) * r :=
    Nat.floor_le (by positivity)
  have h2 : (m : ℚ) * r < ((Nat.floor ((m : ℚ) * r) : ℕ) : ℚ) + 1 :=
    Nat.lt_floor_add_one _
  rw [abs_lt]
  constructor <;> linarith

theorem floor_add_floor_le (m : ℕ) (tr vr : ℚ) (htr : 0 ≤ tr) (hvr : 0 ≤ vr)
    (hsum1 : tr + vr ≤ 1) :
    Nat.floor ((m : ℚ) * tr) + Nat.floor ((m : ℚ) * vr) ≤ m := by
  have h1 : ((Nat.floor ((m : ℚ) * tr) : ℕ) : ℚ) ≤ (m : ℚ) * tr :=
    Nat.floor_le (by positivity)
  have h2 : ((Nat.floor ((m : ℚ) * vr) : ℕ) : ℚ) ≤ (m : ℚ) * vr :=
    Nat.floor_le (by positivity)
  have hm0 : (0 : ℚ) ≤ (m : ℚ) := Nat.cast_nonneg m
  have hm : (m : ℚ) * tr + (m : ℚ) * vr ≤ (m : ℚ) := by nlinarith
  have : ((Nat.floor ((m : ℚ) * tr) + Nat.floor ((m : ℚ) * vr) : ℕ) : ℚ) ≤ (m : ℚ) := by
    push_cast
    linarith
  exact_mod_cast this

theorem test_count_err (m : ℕ) (tr vr te : ℚ) (htr : 0 ≤ tr) (hvr : 0 ≤ vr)
    (hsum : tr + vr + te = 1)
    (hab : Nat.floor ((m : ℚ) * tr) + Nat.floor ((m : ℚ) * vr) ≤ m) :
    |((m - Nat.floor ((m : ℚ) * tr) - Nat.floor ((m : ℚ) * vr) : ℕ) : ℚ) - (m : ℚ) * te| < 2 := by
  have h1 : ((Nat.floor ((m : ℚ) * tr) : ℕ) : ℚ) ≤ (m : ℚ) * tr :=
    Nat.floor_le (by positivity)
  have h2 : (m : ℚ) * tr < ((Nat.floor ((m : ℚ) * tr) : ℕ) : ℚ) + 1 :=
    Nat.lt_floor_add_one _
  have h3 : ((Nat.floor ((m : ℚ) * vr) : ℕ) : ℚ) ≤ (m : ℚ) * vr :=
    Nat.floor_le (by positivity)
  have h4 : (m : ℚ) * vr < ((Nat.floor ((m : ℚ) * vr) : ℕ) : ℚ) + 1 :=
    Nat.lt_floor_add_one _
  have hcast : ((m - Nat.floor ((m : ℚ) * tr) - Nat.floor ((m : ℚ) * vr) : ℕ) : ℚ) =
      (m : ℚ) - ((Nat.floor ((m : ℚ) * tr) : ℕ) : ℚ) - ((Nat.floor ((m : ℚ) * vr) : ℕ) : ℚ) := by
    rw [Nat.sub_sub, Nat.cast_sub hab]
    push_cast
    ring
  have hte : te = 1 - tr - vr := by linarith
  rw [hcast, hte, abs_lt]
  constructor <;> nlinarith

/-- If each per-class partition count is within `e` of the exact split of
that class, the partition's class-1 rate is within `3e / partition size` of
the population's class-1 rate. -/
theorem rate_close (n0 n1 p0 p1 : ℕ) (ρ e : ℚ)
    (h0 : |(p0 : ℚ) - (n0 : ℚ) * ρ| < e) (h1 : |(p1 : ℚ) - (n1 : ℚ) * ρ| < e)
    (hp : 0 < p0 + p1) (hn : 0 < n0 + n1) :
    |(p1 : ℚ) / ((p0 : ℚ) + (p1 : ℚ)) - (n1 : ℚ) / ((n0 : ℚ) + (n1 : ℚ))| <
      3 * e / ((p0 : ℚ) + (p1 : ℚ)) := by
  have hP : (0 : ℚ) < (p0 : ℚ) + (p1 : ℚ) := by exact_mod_cast hp
  have hN : (0 : ℚ) < (n0 : ℚ) + (n1 : ℚ) := by exact_mod_cast hn
  have he : (0 : ℚ) < e := lt_of_le_of_lt (abs_nonneg _) h0
  have hn1N : (n1 : ℚ) ≤ (n0 : ℚ) + (n1 : ℚ) := by
    have : (0 : ℚ) ≤ (n0 : ℚ) := Nat.cast_nonneg _
    linarith
  have hb : |((p0 : ℚ) + (p1 : ℚ)) - ((n0 : ℚ) + (n1 : ℚ)) * ρ| < 2 * e := by
    have heq : ((p0 : ℚ) + (p1 : ℚ)) - ((n0 : ℚ) + (n1 : ℚ)) * ρ =
        ((p0 : ℚ) - (n0 : ℚ) * ρ) + ((p1 : ℚ) - (n1 : ℚ) * ρ) := by ring
    calc |((p0 : ℚ) + (p1 : ℚ)) - ((n0 : ℚ) + (n1 : ℚ)) * ρ|
        ≤ |(p0 : ℚ) - (n0 : ℚ) * ρ| + |(p1 : ℚ) - (n1 : ℚ) * ρ| := by
          rw [heq]; exact abs_add _ _
      _ < 2 * e := by linarith
  have hkey : |(p1 : ℚ) * ((n0 : ℚ) + (n1 : ℚ)) - ((p0 : ℚ) + (p1 : ℚ)) * (n1 : ℚ)| <
      3 * e * ((n0 : ℚ) + (n1 : ℚ)) := by
    have hrw : (p1 : ℚ) * ((n0 : ℚ) + (n1 : ℚ)) - ((p0 : ℚ) + (p1 : ℚ)) * (n1 : ℚ) =
        ((n0 : ℚ) + (n1 : ℚ)) * ((p1 : ℚ) - (n1 : ℚ) * ρ) -
          (n1 : ℚ) * (((p0 : ℚ) + (p1 : ℚ)) - ((n0 : ℚ) + (n1 : ℚ)) * ρ) := by ring
    rw [hrw]
    have habs : |((n0 : ℚ) + (n1 : ℚ)) * ((p1 : ℚ) - (n1 : ℚ) * ρ) -
        (n1 : ℚ) * (((p0 : ℚ) + (p1 : ℚ)) - ((n0 : ℚ) + (n1 : ℚ)) * ρ)| ≤
        |((n0 : ℚ) + (n1 : ℚ)) * ((p1 : ℚ) - (n1 : ℚ) * ρ)| +
          |(n1 : ℚ) * (((p0 : ℚ) + (p1 : ℚ)) - ((n0 : ℚ) + (n1 : ℚ)) * ρ)| := abs_sub _ _
    have hA : |((n0 : ℚ) + (n1 : ℚ)) * ((p1 : ℚ) - (n1 : ℚ) * ρ)| <
        ((n0 : ℚ) + (n1 : ℚ)) * e := by
      rw [abs_mul, abs_of_pos hN]
      exact mul_lt_mul_of_pos_left h1 hN
    have hB : |(n1 : ℚ) * (((p0 : ℚ) + (p1 : ℚ)) - ((n0 : ℚ) + (n1 : ℚ)) * ρ)| ≤
        ((n0 : ℚ) + (n1 : ℚ)) * (2 * e) := by
      rw [abs_mul, abs_of_nonneg (Nat.cast_nonneg _ : (0 : ℚ) ≤ (n1 : ℚ))]
      calc (n1 : ℚ) * |((p0 : ℚ) + (p1 : ℚ)) - ((n0 : ℚ) + (n1 : ℚ)) * ρ|
          ≤ (n1 : ℚ) * (2 * e) := by
            exact mul_le_mul_of_nonneg_left (le_of_lt hb) (Nat.cast_nonneg _)
        _ ≤ ((n0 : ℚ) + (n1 : ℚ)) * (2 * e) := by nlinarith
    calc |((n0 : ℚ) + (n1 : ℚ)) * ((p1 : ℚ) - (n1 : ℚ) * ρ) -
        (n1 : ℚ) * (((p0 : ℚ) + (p1 : ℚ)) - ((n0 : ℚ) + (n1 : ℚ)) * ρ)|
        ≤ _ + _ := habs
      _ < ((n0 : ℚ) + (n1 : ℚ)) * e + ((n0 : ℚ) + (n1 : ℚ)) * (2 * e) := by linarith
      _ = 3 * e * ((n0 : ℚ) + (n1 : ℚ)) := by ring
  rw [div_sub_div _ _ (ne_of_gt hP) (ne_of_gt hN), abs_div,
    abs_of_pos (mul_pos hP hN)]
  rw [show 3 * e / ((p0 : ℚ) + (p1 : ℚ)) =
      3 * e * ((n0 : ℚ) + (n1 : ℚ)) / (((p0 : ℚ) + (p1 : ℚ)) * ((n0 : ℚ) + (n1 : ℚ))) from
    (mul_div_mul_right _ _ (ne_of_gt hN)).symm]
  exact (div_lt_div_iff_of_pos_right (mul_pos hP hN)).mpr hkey

theorem classIndices_length_eq_count (labels : List Bool) (c : Bool) :
    (classIndices labels c).length = labels.count c := by
  induction labels with
  | nil => simp [classIndices]
  | cons x xs ih =>
    rw [classIndices, List.length_cons, List.range_succ_eq_map, List.filter_cons]
    simp only [List.getD_cons_zero, List.getD_cons_succ]
    rw [List.filter_map]
    simp only [Function.comp_def, List.getD_cons_succ]
    rw [List.count_cons]
    by_cases hx : x == c
    · rw [if_pos hx]
      simp only [List.length_cons, List.length_map]
      rw [show ((List.range xs.length).filter fun i => xs.getD i false == c).length =
          xs.count c from ih]
      simp [hx]
    · rw [if_neg hx]
      simp only [List.length_map]
      rw [show ((List.range xs.length).filter fun i => xs.getD i false == c).length =
          xs.count c from ih]
      simp only [beq_iff_eq] at hx
      simp [hx]

theorem count_false_add_count_true (l : List Bool) :
    l.count false + l.count true = l.length := by
  induction l with
  | nil => simp
  | cons x xs ih =>
    cases x <;> simp [List.count_cons] <;> omega

theorem splitClass_lengths (idxs : List ℕ) (tr vr : ℚ)
    (htr : 0 ≤ tr) (hvr : 0 ≤ vr) (hsum1 : tr + vr ≤ 1) :
    (splitClass idxs tr vr).1.length = Nat.floor ((idxs.length : ℚ) * tr) ∧
    (splitClass idxs tr vr).2.1.length = Nat.floor ((idxs.length : ℚ) * vr) ∧
    (splitClass idxs tr vr).2.2.length =
      idxs.length - Nat.floor ((idxs.length : ℚ) * tr) - Nat.floor ((idxs.length : ℚ) * vr) := by
  have hab := floor_add_floor_le idxs.length tr vr htr hvr hsum1
  refine ⟨?_, ?_, ?_⟩
  · simp only [splitClass, List.length_take]
    omega
  · simp only [splitClass, Nat.add_sub_cancel_left, List.length_take, List.length_drop]
    omega
  · simp only [splitClass, List.length_drop]
    omega

theorem splitClass_subsets (idxs : List ℕ) (tr vr : ℚ) :
    (∀ i ∈ (splitClass idxs tr vr).1, i ∈ idxs) ∧
    (∀ i ∈ (splitClass idxs tr vr).2.1, i ∈ idxs) ∧
    (∀ i ∈ (splitClass idxs tr vr).2.2, i ∈ idxs) := by
  refine ⟨?_, ?_, ?_⟩ <;> intro i hi
  · exact List.mem_of_mem_take hi
  · exact List.mem_of_mem_drop (List.mem_of_mem_take hi)
  · exact List.mem_of_mem_drop hi

theorem countP_piece_true {labels : List Bool} {s : List ℕ}
    (hs : ∀ i ∈ s, labels.getD i false = true) {t : List ℕ} (hsub : ∀ i ∈ t, i ∈ s) :
    (t.countP fun i => labels.getD i false) = t.length :=
  List.countP_eq_length.mpr fun i hi => by
    simpa using hs i (hsub i hi)

theorem countP_piece_false {labels : List Bool} {s : List ℕ}
    (hs : ∀ i ∈ s, labels.getD i false = false) {t : List ℕ} (hsub : ∀ i ∈ t, i ∈ s) :
    (t.countP fun i => labels.getD i false) = 0 :=
  List.countP_eq_zero.mpr fun i hi => by
    simpa using hs i (hsub i hi)

/-- The single-partition core of C4: if the partition's per-class counts are
within `e ≤ 2` of the exact per-class split, its fraud rate is within
`6 / size` of the population's. -/
theorem partition_rate_close (labels : List Bool) (p0 p1 : ℕ) (part : List ℕ) (ρ e : ℚ)
    (hcount : (part.countP fun i => labels.getD i false) = p1)
    (hlen : part.length = p0 + p1)
    (h0 : |(p0 : ℚ) - ((labels.count false : ℕ) : ℚ) * ρ| < e)
    (h1 : |(p1 : ℚ) - ((labels.count true : ℕ) : ℚ) * ρ| < e)
    (he3 : 3 * e ≤ 6)
    (hp : 0 < part.length) (hN : 0 < labels.length) :
    |fraudRate labels part - populationFraudRate labels| < splitTolerance part.length := by
  have hNc : 0 < labels.count false + labels.count true := by
    rw [count_false_add_count_true]; exact hN
  have hPc : 0 < p0 + p1 := by omega
  have hclose := rate_close (labels.count false) (labels.count true) p0 p1 ρ e h0 h1 hPc hNc
  have hPQ : (0 : ℚ) < ((part.length : ℕ) : ℚ) := by exact_mod_cast hp
  rw [fraudRate, populationFraudRate, hcount, hlen, splitTolerance]
  rw [show labels.length = labels.count false + labels.count true from
    (count_false_add_count_true labels).symm]
  push_cast
  push_cast at hclose
  refine lt_of_lt_of_le hclose ?_
  rw [hlen] at hPQ
  push_cast at hPQ
  exact (div_le_div_iff_of_pos_right hPQ).mpr he3

/-- C4: each of the three partitions produced by `create_stratified_split`
has a fraud rate within the floor-rounding tolerance `6 / partition size` of
the whole population's fraud rate (the per-class split points are floors of
`n_class * ratio`, so each per-class partition count is within 2 of exact). -/
theorem stratified_split_fraud_rates (labels : List Bool) (shuffled0 shuffled1 : List ℕ)
    (tr vr te : ℚ)
    (h0 : shuffled0.Perm (classIndices labels false))
    (h1 : shuffled1.Perm (classIndices labels true))
    (htr : 0 ≤ tr) (hvr : 0 ≤ vr) (hte : 0 ≤ te) (hsum : tr + vr + te = 1)
    (hT : 0 < (create_stratified_split labels shuffled0 shuffled1 tr vr te).1.length)
    (hV : 0 < (create_stratified_split labels shuffled0 shuffled1 tr vr te).2.1.length)
    (hW : 0 < (create_stratified_split labels shuffled0 shuffled1 tr vr te).2.2.length) :
    |fraudRate labels (create_stratified_split labels shuffled0 shuffled1 tr vr te).1 -
        populationFraudRate labels| <
      splitTolerance (create_stratified_split labels shuffled0 shuffled1 tr vr te).1.length ∧
    |fraudRate labels (create_stratified_split labels shuffled0 shuffled1 tr vr te).2.1 -
        populationFraudRate labels| <
      splitTolerance
        (create_stratified_split labels shuffled0 shuffled1 tr vr te).2.1.length ∧
    |fraudRate labels (create_stratified_split labels shuffled0 shuffled1 tr vr te).2.2 -
        populationFraudRate labels| <
      splitTolerance
        (create_stratified_split labels shuffled0 shuffled1 tr vr te).2.2.length := by
  have hs1 : tr + vr ≤ 1 := by linarith
  obtain ⟨L0t, L0v, L0w⟩ := splitClass_lengths shuffled0 tr vr htr hvr hs1
  obtain ⟨L1t, L1v, L1w⟩ := splitClass_lengths shuffled1 tr vr htr hvr hs1
  obtain ⟨sub0t, sub0v, sub0w⟩ := splitClass_subsets shuffled0 tr vr
  obtain ⟨sub1t, sub1v, sub1w⟩ := splitClass_subsets shuffled1 tr vr
  have hclass0 : ∀ i ∈ shuffled0, labels.getD i false = false := fun i hi =>
    (mem_classIndices.mp (h0.mem_iff.mp hi)).2
  have hclass1 : ∀ i ∈ shuffled1, labels.getD i false = true := fun i hi =>
    (mem_classIndices.mp (h1.mem_iff.mp hi)).2
  have hn0 : shuffled0.length = labels.count false := by
    rw [h0.length_eq, classIndices_length_eq_count]
  have hn1 : shuffled1.length = labels.count true := by
    rw [h1.length_eq, classIndices_length_eq_count]
  have hN : 0 < labels.length := by
    simp only [create_stratified_split] at hT
    obtain ⟨i, hi⟩ := List.exists_mem_of_length_pos hT
    rcases List.mem_append.mp hi with hm | hm
    · have := (mem_classIndices.mp (h0.mem_iff.mp (sub0t i hm))).1
      omega
    · have := (mem_classIndices.mp (h1.mem_iff.mp (sub1t i hm))).1
      omega
  have e0t : |(((splitClass shuffled0 tr vr).1.length : ℕ) : ℚ) -
      ((labels.count false : ℕ) : ℚ) * tr| < 1 := by
    rw [L0t, hn0]
    exact floor_err _ _ htr
  have e1t : |(((splitClass shuffled1 tr vr).1.length : ℕ) : ℚ) -
      ((labels.count true : ℕ) : ℚ) * tr| < 1 := by
    rw [L1t, hn1]
    exact floor_err _ _ htr
  have e0v : |(((splitClass shuffled0 tr vr).2.1.length : ℕ) : ℚ) -
      ((labels.count false : ℕ) : ℚ) * vr| < 1 := by
    rw [L0v, hn0]
    exact floor_err _ _ hvr
  have e1v : |(((splitClass shuffled1 tr vr).2.1.length : ℕ) : ℚ) -
      ((labels.count true : ℕ) : ℚ) * vr| < 1 := by
    rw [L1v, hn1]
    exact floor_err _ _ hvr
  have e0w : |(((splitClass shuffled0 tr vr).2.2.length : ℕ) : ℚ) -
      ((labels.count false : ℕ) : ℚ) * te| < 2 := by
    rw [L0w, hn0]
    exact test_count_err _ tr vr te htr hvr hsum
      (floor_add_floor_le _ tr vr htr hvr hs1)
  have e1w : |(((splitClass shuffled1 tr vr).2.2.length : ℕ) : ℚ) -
      ((labels.count true : ℕ) : ℚ) * te| < 2 := by
    rw [L1w, hn1]
    exact test_count_err _ tr vr te htr hvr hsum
      (floor_add_floor_le _ tr vr htr hvr hs1)
  refine ⟨?_, ?_, ?_⟩
  · simp only [create_stratified_split] at hT ⊢
    exact partition_rate_close labels (splitClass shuffled0 tr vr).1.length
      (splitClass shuffled1 tr vr).1.length _ tr 1
      (by rw [List.countP_append, countP_piece_false hclass0 sub0t,
        countP_piece_true hclass1 sub1t, Nat.zero_add])
      (List.length_append _ _) e0t e1t (by norm_num) hT hN
  · simp only [create_stratified_split] at hV ⊢
    exact partition_rate_close labels (splitClass shuffled0 tr vr).2.1.length
      (splitClass shuffled1 tr vr).2.1.length _ vr 1
      (by rw [List.countP_append, countP_piece_false hclass0 sub0v,
        countP_piece_true hclass1 sub1v, Nat.zero_add])
      (List.length_append _ _) e0v e1v (by norm_num) hV hN
  · simp only [create_stratified_split] at hW ⊢
    exact partition_rate_close labels (splitClass shuffled0 tr vr).2.2.length
      (splitClass shuffled1 tr vr).2.2.length _ te 2
      (by rw [List.countP_append, countP_piece_false hclass0 sub0w,
        countP_piece_true hclass1 sub1w, Nat.zero_add])
      (List.length_append _ _) e0w e1w (by norm_num) hW hN

def c4Labels : List Bool :=
  [true, true, true, true, true, false, false, false, false, false]

def c4S0 : List ℕ := [5, 6, 7, 8, 9]

def c4S1 : List ℕ := [0, 1, 2, 3, 4]

theorem stratified_split_fraud_rates_witness :
    |fraudRate c4Labels (create_stratified_split c4Labels c4S0 c4S1 (3/5) (1/5) (1/5)).1 -
        populationFraudRate c4Labels| <
      splitTolerance (create_stratified_split c4Labels c4S0 c4S1 (3/5) (1/5) (1/5)).1.length ∧
    |fraudRate c4Labels (create_stratified_split c4Labels c4S0 c4S1 (3/5) (1/5) (1/5)).2.1 -
        populationFraudRate c4Labels| <
      splitTolerance (create_stratified_split c4Labels c4S0 c4S1 (3/5) (1/5) (1/5)).2.1.length ∧
    |fraudRate c4Labels (create_stratified_split c4Labels c4S0 c4S1 (3/5) (1/5) (1/5)).2.2 -
        populationFraudRate c4Labels| <
      splitTolerance (create_stratified_split c4Labels c4S0 c4S1 (3/5) (1/5) (1/5)).2.2.length :=
  stratified_split_fraud_rates c4Labels c4S0 c4S1 (3/5) (1/5) (1/5) (by decide) (by decide)
    (by norm_num) (by norm_num) (by norm_num) (by norm_num)
    (by norm_num [create_stratified_split, splitClass, c4S0, c4S1])
    (by norm_num [create_stratified_split, splitClass, c4S0, c4S1])
    (by norm_num [create_stratified_split, splitClass, c4S0, c4S1])
